import Mathlib

set_option maxRecDepth 10000

/-!
Shallow embedding of the `hitime` hierarchical timeout manager
(`src/include/hitime.h`, `src/src/hitime.c`).

Timers are modelled by value: a record carries the identity of the
caller-owned object (`id`), its absolute expiry (`when`, a u64) and the
opaque user word (`data`).  The intrusive circular lists of the C code
become Lean lists holding the timers in their linked order; a timer's
`node_in_list` hook test becomes membership in one of the wheel's lists,
which coincides with the hook test whenever each live object is linked in
at most one list of this wheel (the well-formedness the C code maintains).
Machine integers are `Nat` with explicit `% 2^64` at the single place the
source can wrap (`hitime_timedelta`); everywhere else the source only
subtracts smaller from larger values under guards that we mirror.
-/

/-- A `hitimeout_t`: identity of the caller-owned object, absolute expiry
`when` (u64) and the opaque user pointer, modelled as a number. -/
structure Timer where
  id : Nat
  when : Nat
  data : Nat
deriving DecidableEq

/-- A `hitime_t`: the last observed time, the `expired` output list, the
`processing` scratch list and the 64 bins.  Bins are a function from the
bin index to the list of timers linked there, in linked order; indices
`≥ 64` are unused (empty in any well-formed wheel). -/
@[ext]
structure Wheel where
  last : Nat
  expired : List Timer
  processing : List Timer
  bins : Nat → List Timer

/-- `HITIME_BINS` from `hitime.h`. -/
def HITIME_BINS : Nat := 64

/-- One past the largest u64 value. -/
def U64_LIMIT : Nat := 2 ^ 64

/-- `WAITMAX = UINT64_MAX` from `hitime.c`. -/
def WAITMAX : Nat := U64_LIMIT - 1

/-- Fuelled floor-log2.  Structurally recursive so that it evaluates by
kernel reduction; with fuel `≥ n` it computes `Nat.log2 n` (proved in
`log2fuel_eq_log2` below). -/
def log2fuel : Nat → Nat → Nat
  | 0, _ => 0
  | fuel + 1, n => if 2 ≤ n then log2fuel fuel (n / 2) + 1 else 0

/-- `get_high_index64`: the index of the highest set bit, i.e. the floor
of log2 (`log2fuel_eq_log2` identifies it with `Nat.log2`).  The C source
is undefined on input 0 (`@warn Do NOT input zero`); here the value on 0
is 0, and the zero-input question is settled separately (claim C7). -/
def get_high_index64 (n : Nat) : Nat := log2fuel n n

/-- `hitime_init`: zero time, all lists empty. -/
def hitime_init : Wheel :=
  { last := 0, expired := [], processing := [], bins := fun _ => [] }

/-- `node_in_list` read through the wheel: in the value model a timer is
linked iff it occurs in one of the wheel's lists. -/
def inWheel (h : Wheel) (t : Timer) : Bool :=
  h.expired.contains t || h.processing.contains t ||
    (List.range HITIME_BINS).any fun i => (h.bins i).contains t

/-- `ht_nq`: append the timer to the tail of
`bins[get_high_index64 (t.when XOR last)]`. -/
def ht_nq (h : Wheel) (t : Timer) : Wheel :=
  let index := get_high_index64 (t.when ^^^ h.last)
  { h with bins := Function.update h.bins index (h.bins index ++ [t]) }

/-- The shared tail of `hitime_start`, `hitime_touch` and the processing
passes: already expired timers go to the tail of `expired`, the others
through `ht_nq`. -/
def ht_insert (h : Wheel) (t : Timer) : Wheel :=
  if t.when ≤ h.last then { h with expired := h.expired ++ [t] } else ht_nq h t

/-- `hitime_start`: a linked timer is ignored; otherwise insert. -/
def hitime_start (h : Wheel) (t : Timer) : Wheel :=
  if inWheel h t then h else ht_insert h t

/-- `hitime_start_range`: overwrite `t.when` with `max & ~((1 << idx) - 1)`
where `idx = get_high_index64 (max XOR min)`, then `hitime_start`.  Returns
the wheel and the mutated timer. -/
def hitime_start_range (h : Wheel) (t : Timer) (tmin tmax : Nat) : Wheel × Timer :=
  let index := get_high_index64 (tmax ^^^ tmin)
  let t' := { t with when := tmax &&& (WAITMAX ^^^ (2 ^ index - 1)) }
  ( hitime_start h t', t')

/-- The expression the C source passes to `get_high_index64` inside
`hitime_start_range` (line `uint64_t bits = max ^ min;`). -/
def start_range_bits (tmin tmax : Nat) : Nat := tmax ^^^ tmin

/-- `hitime_stop`: unlink the timer wherever it is linked; unlinking an
unlinked timer is a no-op (the C code guards on `node_in_list`, and
erasing an absent element changes nothing). -/
def hitime_stop (h : Wheel) (t : Timer) : Wheel :=
  { h with expired := h.expired.erase t, processing := h.processing.erase t,
           bins := fun i => (h.bins i).erase t }

/-- `hitime_touch`: set `t.when := w`, unlink if linked, re-insert by the
start rules.  Returns the wheel and the mutated timer. -/
def hitime_touch (h : Wheel) (t : Timer) (w : Nat) : Wheel × Timer :=
  let t' := { t with when := w }
  (ht_insert ( hitime_stop h t) t', t')

/-- `ht_get_wait`: from the lowest nonempty bin index compute
`(mask - (mask & last)) + 1` with `mask = 2^index - 1`; `WAITMAX` when all
bins are empty. -/
def ht_get_wait (h : Wheel) : Nat :=
  match (List.range HITIME_BINS).find? (fun i => !(h.bins i).isEmpty) with
  | some index => ((2 ^ index - 1) - ((2 ^ index - 1) &&& h.last)) + 1
  | none => WAITMAX

/-- `hitime_get_wait`. -/
def hitime_get_wait (h : Wheel) : Nat := ht_get_wait h

/-- `hitime_get_wait_with`: u64 subtraction `now - last` (wrapping), then
`diff < w ? w - diff : 0`. -/
def hitime_get_wait_with (h : Wheel) (now : Nat) : Nat :=
  let diff := (U64_LIMIT + now - h.last) % U64_LIMIT
  let w := ht_get_wait h
  if diff < w then w - diff else 0

/-- `hitime_max_wait`. -/
def hitime_max_wait : Nat := WAITMAX

/-- `hitime_get_last`. -/
def hitime_get_last (h : Wheel) : Nat := h.last

/-- `list_append(expired, bins[i])` followed by clearing the bin. -/
def spliceBinToExpired (h : Wheel) (i : Nat) : Wheel :=
  { h with expired := h.expired ++ h.bins i, bins := Function.update h.bins i [] }

/-- `list_append(processing, bins[i])` followed by clearing the bin. -/
def spliceBinToProcessing (h : Wheel) (i : Nat) : Wheel :=
  { h with processing := h.processing ++ h.bins i, bins := Function.update h.bins i [] }

/-- `ht_expire_first`: splice bin 0 into `expired`. -/
def ht_expire_first (h : Wheel) : Wheel := spliceBinToExpired h 0

/-- `ht_expire_bulk`: splice bins `1 .. get_high_index64 (now - last) - 1`
into `expired`; also return the final loop index (`max 1 index_max`). -/
def ht_expire_bulk (h : Wheel) (now : Nat) : Wheel × Nat :=
  let index_max := get_high_index64 (now - h.last)
  ((List.range' 1 (index_max - 1)).foldl spliceBinToExpired h, Nat.max 1 index_max)

/-- `ht_process_setup`: splice bins `index .. get_high_index64 (now XOR last)`
into `processing`. -/
def ht_process_setup (h : Wheel) (index now : Nat) : Wheel :=
  let max_index := get_high_index64 (now ^^^ h.last)
  (List.range' index (max_index + 1 - index)).foldl spliceBinToProcessing h

/-- One step of the processing pass: re-evaluate a single timer. -/
def ht_process_one (h : Wheel) (t : Timer) : Wheel := ht_insert h t

/-- `ht_process_all`: drain the whole processing list, re-evaluating each
entry against the (already updated) `last`. -/
def ht_process_all (h : Wheel) : Wheel :=
  h.processing.foldl ht_process_one { h with processing := [] }

/-- `ht_process`: re-evaluate at most `maxops` entries from the head of
`processing` (none when `maxops ≤ 0`, as the C `ops < maxops` test fails
immediately). -/
def ht_process (h : Wheel) (maxops : Int) : Wheel :=
  (h.processing.take maxops.toNat).foldl ht_process_one
    { h with processing := h.processing.drop maxops.toNat }

/-- Phases 1-4 of `hitime_timeout`: `ht_expire_first`, `ht_expire_bulk`,
`ht_process_setup`, `ht_update_last`. -/
def ht_timeout_phases (h : Wheel) (now : Nat) : Wheel :=
  let h1 := ht_expire_first h
  let hb := ht_expire_bulk h1 now
  { ht_process_setup hb.1 hb.2 now with last := now }

/-- `hitime_timeout`: `false` immediately when `now ≤ last`; otherwise the
four phases, the full processing pass, and `!list_is_empty(expired)`. -/
def hitime_timeout (h : Wheel) (now : Nat) : Wheel × Bool :=
  if now ≤ h.last then (h, false)
  else
    let h5 := ht_process_all (ht_timeout_phases h now)
    (h5, !h5.expired.isEmpty)

/-- `hitime_timeout_partial`: phases 1-4 only when `now > last`, then at
most `max_ops` processing steps, returning `!list_is_empty(processing)`. -/
def hitime_timeout_partial (h : Wheel) (now : Nat) (max_ops : Int) : Wheel × Bool :=
  let h4 := if h.last < now then ht_timeout_phases h now else h
  let h5 := ht_process h4 max_ops
  (h5, !h5.processing.isEmpty)

/-- `hitime_timedelta`: `now = last + delta` in u64 (wrapping), saturated
to `UINT64_MAX` when it wrapped, then `hitime_timeout`. -/
def hitime_timedelta (h : Wheel) (delta : Nat) : Wheel × Bool :=
  let n0 := (h.last + delta) % U64_LIMIT
  hitime_timeout h (if n0 < h.last then WAITMAX else n0)

/-- `hitime_expire_all`: splice every bin (ascending) and then the
processing list into `expired`. -/
def hitime_expire_all (h : Wheel) : Wheel :=
  let h1 := (List.range HITIME_BINS).foldl spliceBinToExpired h
  { h1 with expired := h1.expired ++ h1.processing, processing := [] }

/-- `hitime_get_next`: dequeue the head of `expired`. -/
def hitime_get_next (h : Wheel) : Wheel × Option Timer :=
  match h.expired with
  | [] => (h, none)
  | t :: rest => ({ h with expired := rest }, some t)

/-- `hitime_expire_bin`: splice one bin into `expired`; out-of-range
indices are ignored. -/
def hitime_expire_bin (h : Wheel) (index : Int) : Wheel :=
  if index < 0 ∨ (HITIME_BINS : Int) ≤ index then h
  else spliceBinToExpired h index.toNat

/-! ## Invariants -/

/-- Bins at indices `≥ 64` are unused. -/
def BinsBounded (h : Wheel) : Prop := ∀ i, HITIME_BINS ≤ i → h.bins i = []

/-- The bin-placement invariant: every timer linked in `bins[i]` has
`get_high_index64 (t.when XOR last) = i` and lies in the future. -/
def BinInv (h : Wheel) : Prop :=
  ∀ i, ∀ t ∈ h.bins i, get_high_index64 (t.when ^^^ h.last) = i ∧ h.last < t.when

/-- The expired-list invariant: every timer in `expired` has already
triggered. -/
def ExpInv (h : Wheel) : Prop := ∀ t ∈ h.expired, t.when ≤ h.last

/-! ## Bit-level lemmas -/

lemma log2fuel_eq_log2 : ∀ fuel n, n ≤ fuel → log2fuel fuel n = Nat.log2 n := by
  intro fuel
  induction fuel with
  | zero =>
    intro n hn
    have hz : n = 0 := by omega
    subst hz
    unfold Nat.log2
    rfl
  | succ fuel ih =>
    intro n hn
    unfold Nat.log2
    show (if 2 ≤ n then log2fuel fuel (n / 2) + 1 else 0) = _
    by_cases h2 : 2 ≤ n
    · rw [if_pos h2, if_pos h2, ih (n / 2) ?hle]
      case hle =>
        have := Nat.div_lt_self (show 0 < n by omega) (show 1 < 2 by omega)
        omega
    · rw [if_neg h2, if_neg h2]

/-- `get_high_index64` computes `Nat.log2`. -/
lemma ghi_eq_log2 (n : Nat) : get_high_index64 n = Nat.log2 n :=
  log2fuel_eq_log2 n n le_rfl

lemma log2_window {x i : Nat} (hx : x ≠ 0) :
    Nat.log2 x = i ↔ 2 ^ i ≤ x ∧ x < 2 ^ (i + 1) := by
  constructor
  · rintro rfl
    exact ⟨(Nat.le_log2 hx).1 le_rfl, (Nat.log2_lt hx).1 (Nat.lt_succ_self _)⟩
  · rintro ⟨h1, h2⟩
    have ha := (Nat.le_log2 hx).2 h1
    have hb := (Nat.log2_lt hx).2 h2
    omega

lemma testBit_top {x i : Nat} (h1 : 2 ^ i ≤ x) (h2 : x < 2 ^ (i + 1)) :
    x.testBit i = true := by
  have hd : x / 2 ^ i = 1 := by
    have hpow : 2 ^ (i + 1) = 2 ^ i * 2 := by rw [Nat.pow_succ]
    exact Nat.div_eq_of_lt_le (by omega) (by omega)
  rw [Nat.testBit_to_div_mod, hd]
  decide

lemma shiftRight_xor_distrib (a b k : Nat) : (a ^^^ b) >>> k = (a >>> k) ^^^ (b >>> k) := by
  apply Nat.eq_of_testBit_eq
  intro j
  simp [Nat.testBit_shiftRight, Nat.testBit_xor]

lemma xor_div_eq {a b k : Nat} (h : a ^^^ b < 2 ^ k) : a / 2 ^ k = b / 2 ^ k := by
  have h0 : (a ^^^ b) >>> k = 0 := by
    rw [Nat.shiftRight_eq_div_pow]
    exact Nat.div_eq_of_lt h
  rw [shiftRight_xor_distrib] at h0
  have := Nat.xor_eq_zero.1 h0
  rwa [Nat.shiftRight_eq_div_pow, Nat.shiftRight_eq_div_pow] at this

lemma xor_lt_of_div_eq {a b k : Nat} (h : a / 2 ^ k = b / 2 ^ k) : a ^^^ b < 2 ^ k := by
  have h0 : (a ^^^ b) >>> k = 0 := by
    rw [shiftRight_xor_distrib, Nat.shiftRight_eq_div_pow, Nat.shiftRight_eq_div_pow, h]
    simp
  rw [Nat.shiftRight_eq_div_pow] at h0
  have hpos : 0 < 2 ^ k := Nat.pos_pow_of_pos k (by omega)
  exact (Nat.div_eq_zero_iff hpos).1 h0

lemma lt_add_pow_of_xor_lt {w l k : Nat} (h : w ^^^ l < 2 ^ k) : w < l + 2 ^ k := by
  have hd := xor_div_eq h
  have h1 : 2 ^ k * (w / 2 ^ k) + w % 2 ^ k = w := Nat.div_add_mod w (2 ^ k)
  have h2 : w % 2 ^ k < 2 ^ k := Nat.mod_lt _ (Nat.pos_pow_of_pos k (by omega))
  have h3 : 2 ^ k * (l / 2 ^ k) ≤ l := by
    calc 2 ^ k * (l / 2 ^ k) = l / 2 ^ k * 2 ^ k := Nat.mul_comm _ _
    _ ≤ l := Nat.div_mul_le_self _ _
  rw [hd] at h1
  omega

lemma testBit_eq_of_xor_lt {a b k j : Nat} (h : a ^^^ b < 2 ^ k) (hj : k ≤ j) :
    a.testBit j = b.testBit j := by
  have hlt : a ^^^ b < 2 ^ j := lt_of_lt_of_le h (Nat.pow_le_pow_right (by omega) hj)
  have := Nat.testBit_lt_two_pow hlt
  rw [Nat.testBit_xor] at this
  cases ha : a.testBit j <;> cases hb : b.testBit j <;> simp [ha, hb] at this ⊢

lemma testBit_split_of_window {a b i : Nat} (hge : 2 ^ i ≤ a ^^^ b)
    (hlt : a ^^^ b < 2 ^ (i + 1)) (hab : b < a) :
    a.testBit i = true ∧ b.testBit i = false := by
  have htop := testBit_top hge hlt
  rw [Nat.testBit_xor] at htop
  have habove : ∀ j, i < j → b.testBit j = a.testBit j := by
    intro j hj
    have hab2 : a.testBit j = b.testBit j := testBit_eq_of_xor_lt hlt (by omega)
    exact hab2.symm
  cases ha : a.testBit i <;> cases hb : b.testBit i <;> rw [ha, hb] at htop
  · simp at htop
  · exfalso
    have : a < b := Nat.lt_of_testBit i ha hb (fun j hj => (habove j hj).symm)
    omega
  · exact ⟨rfl, rfl⟩
  · simp at htop

lemma xor_cancel_common (w l n : Nat) : (w ^^^ l) ^^^ (n ^^^ l) = w ^^^ n := by
  apply Nat.eq_of_testBit_eq
  intro j
  simp only [Nat.testBit_xor]
  cases w.testBit j <;> cases l.testBit j <;> cases n.testBit j <;> rfl

/-- A timer correctly binned against `l`, in a bin strictly above the
highest bit flipped between `l` and `n`, keeps its bin index against `n`
and still lies strictly in the future of `n`. -/
lemma bin_stable {w l n i : Nat} (hwl : Nat.log2 (w ^^^ l) = i) (hlw : l < w)
    (htop : Nat.log2 (n ^^^ l) < i) (hln : l ≠ n) :
    Nat.log2 (w ^^^ n) = i ∧ n < w := by
  have hwl0 : w ^^^ l ≠ 0 := by
    intro h0
    have := Nat.xor_eq_zero.1 h0
    omega
  obtain ⟨hge, hlt⟩ := (log2_window hwl0).1 hwl
  have hnl0 : n ^^^ l ≠ 0 := by
    intro h0
    exact hln (Nat.xor_eq_zero.1 h0).symm
  have hnl_lt : n ^^^ l < 2 ^ i := (Nat.log2_lt hnl0).1 htop
  obtain ⟨hwi, hli⟩ := testBit_split_of_window hge hlt hlw
  have hni : n.testBit i = false := by
    have hnb : n.testBit i = l.testBit i := testBit_eq_of_xor_lt hnl_lt le_rfl
    rw [hnb]
    exact hli
  have hxwn : w ^^^ n = (w ^^^ l) ^^^ (n ^^^ l) := (xor_cancel_common w l n).symm
  have hwn_ge : 2 ^ i ≤ w ^^^ n := by
    apply Nat.testBit_implies_ge
    rw [Nat.testBit_xor, hwi, hni]
    rfl
  have hwn_lt : w ^^^ n < 2 ^ (i + 1) := by
    rw [hxwn]
    exact Nat.xor_lt_two_pow hlt (lt_trans hnl_lt (Nat.pow_lt_pow_succ (by omega)))
  have hwn0 : w ^^^ n ≠ 0 := by
    have := Nat.pos_pow_of_pos i (show 0 < 2 by omega)
    omega
  have hagree : ∀ j, i < j → n.testBit j = w.testBit j := by
    intro j hj
    have h1 : n.testBit j = l.testBit j := testBit_eq_of_xor_lt hnl_lt (by omega)
    have h2 : w.testBit j = l.testBit j := testBit_eq_of_xor_lt hlt (by omega)
    rw [h1, h2]
  exact ⟨(log2_window hwn0).2 ⟨hwn_ge, hwn_lt⟩, Nat.lt_of_testBit i hni hwi hagree⟩

/-- A timer binned at index `i` against `l` expires before `l + 2^(i+1)`. -/
lemma bin_when_bound {w l i : Nat} (hwl : Nat.log2 (w ^^^ l) = i) (hlw : l < w) :
    w < l + 2 ^ (i + 1) := by
  have hwl0 : w ^^^ l ≠ 0 := by
    intro h0
    have := Nat.xor_eq_zero.1 h0
    omega
  exact lt_add_pow_of_xor_lt ((log2_window hwl0).1 hwl).2

/-- If `l ≤ n` lies before the next multiple of `2^k` above `l`, then `n`
and `l` share their high bits from position `k` upward. -/
lemma div_pow_eq_of_between {l n k : Nat} (h1 : l ≤ n)
    (h2 : n < l + (2 ^ k - l % 2 ^ k)) : n / 2 ^ k = l / 2 ^ k := by
  have hpos : 0 < 2 ^ k := Nat.pos_pow_of_pos k (by omega)
  have hm : 2 ^ k * (l / 2 ^ k) + l % 2 ^ k = l := Nat.div_add_mod l (2 ^ k)
  have hmlt : l % 2 ^ k < 2 ^ k := Nat.mod_lt _ hpos
  apply Nat.div_eq_of_lt_le
  · have : 2 ^ k * (l / 2 ^ k) ≤ l := by omega
    calc l / 2 ^ k * 2 ^ k = 2 ^ k * (l / 2 ^ k) := Nat.mul_comm _ _
    _ ≤ n := by omega
  · have hexp : (l / 2 ^ k + 1) * 2 ^ k = 2 ^ k * (l / 2 ^ k) + 2 ^ k := by ring
    omega

/-! ## Frame lemmas for the splice folds -/

lemma spliceExp_last (h : Wheel) (i : Nat) : (spliceBinToExpired h i).last = h.last := rfl

lemma spliceExp_processing (h : Wheel) (i : Nat) :
    (spliceBinToExpired h i).processing = h.processing := rfl

lemma spliceProc_last (h : Wheel) (i : Nat) : (spliceBinToProcessing h i).last = h.last := rfl

lemma spliceProc_expired (h : Wheel) (i : Nat) :
    (spliceBinToProcessing h i).expired = h.expired := rfl

lemma foldExp_last (L : List Nat) (h : Wheel) :
    (L.foldl spliceBinToExpired h).last = h.last := by
  induction L generalizing h with
  | nil => rfl
  | cons a L ih =>
    rw [List.foldl_cons, ih]
    rfl

lemma foldExp_processing (L : List Nat) (h : Wheel) :
    (L.foldl spliceBinToExpired h).processing = h.processing := by
  induction L generalizing h with
  | nil => rfl
  | cons a L ih =>
    rw [List.foldl_cons, ih]
    rfl

lemma foldProc_last (L : List Nat) (h : Wheel) :
    (L.foldl spliceBinToProcessing h).last = h.last := by
  induction L generalizing h with
  | nil => rfl
  | cons a L ih =>
    rw [List.foldl_cons, ih]
    rfl

lemma foldProc_expired (L : List Nat) (h : Wheel) :
    (L.foldl spliceBinToProcessing h).expired = h.expired := by
  induction L generalizing h with
  | nil => rfl
  | cons a L ih =>
    rw [List.foldl_cons, ih]
    rfl

lemma foldExp_bins_not_mem {L : List Nat} {i : Nat} (h : Wheel) (hi : i ∉ L) :
    (L.foldl spliceBinToExpired h).bins i = h.bins i := by
  induction L generalizing h with
  | nil => rfl
  | cons a L ih =>
    have h1 : i ≠ a := fun e => hi (e ▸ List.mem_cons_self a L)
    have h2 : i ∉ L := fun e => hi (List.mem_cons_of_mem a e)
    rw [List.foldl_cons, ih _ h2]
    exact Function.update_noteq h1 _ _

lemma foldProc_bins_not_mem {L : List Nat} {i : Nat} (h : Wheel) (hi : i ∉ L) :
    (L.foldl spliceBinToProcessing h).bins i = h.bins i := by
  induction L generalizing h with
  | nil => rfl
  | cons a L ih =>
    have h1 : i ≠ a := fun e => hi (e ▸ List.mem_cons_self a L)
    have h2 : i ∉ L := fun e => hi (List.mem_cons_of_mem a e)
    rw [List.foldl_cons, ih _ h2]
    exact Function.update_noteq h1 _ _

lemma foldExp_bins_mem {L : List Nat} {i : Nat} (h : Wheel) (hi : i ∈ L) :
    (L.foldl spliceBinToExpired h).bins i = [] := by
  induction L generalizing h with
  | nil => cases hi
  | cons a L ih =>
    rw [List.foldl_cons]
    by_cases hil : i ∈ L
    · exact ih _ hil
    · have hia : i = a := by
        rcases List.mem_cons.1 hi with he | he
        · exact he
        · exact absurd he hil
      subst hia
      rw [foldExp_bins_not_mem _ hil]
      exact Function.update_same i _ _

lemma foldProc_bins_mem {L : List Nat} {i : Nat} (h : Wheel) (hi : i ∈ L) :
    (L.foldl spliceBinToProcessing h).bins i = [] := by
  induction L generalizing h with
  | nil => cases hi
  | cons a L ih =>
    rw [List.foldl_cons]
    by_cases hil : i ∈ L
    · exact ih _ hil
    · have hia : i = a := by
        rcases List.mem_cons.1 hi with he | he
        · exact he
        · exact absurd he hil
      subst hia
      rw [foldProc_bins_not_mem _ hil]
      exact Function.update_same i _ _

lemma foldExp_expired_mem {L : List Nat} {t : Timer} (h : Wheel)
    (ht : t ∈ (L.foldl spliceBinToExpired h).expired) :
    t ∈ h.expired ∨ ∃ i ∈ L, t ∈ h.bins i := by
  induction L generalizing h with
  | nil => exact Or.inl ht
  | cons a L ih =>
    rw [List.foldl_cons] at ht
    rcases ih _ ht with h1 | ⟨i, hiL, hib⟩
    · rcases List.mem_append.1 h1 with h2 | h2
      · exact Or.inl h2
      · exact Or.inr ⟨a, List.mem_cons_self a L, h2⟩
    · by_cases hia : i = a
      · subst hia
        rw [show (spliceBinToExpired h i).bins i = [] from Function.update_same i _ _] at hib
        cases hib
      · rw [show (spliceBinToExpired h a).bins i = h.bins i from Function.update_noteq hia _ _] at hib
        exact Or.inr ⟨i, List.mem_cons_of_mem a hiL, hib⟩

lemma foldProc_processing_mem {L : List Nat} {t : Timer} (h : Wheel)
    (ht : t ∈ (L.foldl spliceBinToProcessing h).processing) :
    t ∈ h.processing ∨ ∃ i ∈ L, t ∈ h.bins i := by
  induction L generalizing h with
  | nil => exact Or.inl ht
  | cons a L ih =>
    rw [List.foldl_cons] at ht
    rcases ih _ ht with h1 | ⟨i, hiL, hib⟩
    · rcases List.mem_append.1 h1 with h2 | h2
      · exact Or.inl h2
      · exact Or.inr ⟨a, List.mem_cons_self a L, h2⟩
    · by_cases hia : i = a
      · subst hia
        rw [show (spliceBinToProcessing h i).bins i = [] from Function.update_same i _ _] at hib
        cases hib
      · rw [show (spliceBinToProcessing h a).bins i = h.bins i from Function.update_noteq hia _ _] at hib
        exact Or.inr ⟨i, List.mem_cons_of_mem a hiL, hib⟩

lemma spliceExp_empty {h : Wheel} {i : Nat} (hb : h.bins i = []) :
    spliceBinToExpired h i = h := by
  have hupd : Function.update h.bins i [] = h.bins := by
    rw [← hb]
    exact Function.update_eq_self i h.bins
  unfold spliceBinToExpired
  rw [hb, hupd, List.append_nil]

lemma spliceProc_empty {h : Wheel} {i : Nat} (hb : h.bins i = []) :
    spliceBinToProcessing h i = h := by
  have hupd : Function.update h.bins i [] = h.bins := by
    rw [← hb]
    exact Function.update_eq_self i h.bins
  unfold spliceBinToProcessing
  rw [hb, hupd, List.append_nil]

lemma foldExp_id {L : List Nat} (h : Wheel) (hb : ∀ i ∈ L, h.bins i = []) :
    L.foldl spliceBinToExpired h = h := by
  induction L generalizing h with
  | nil => rfl
  | cons a L ih =>
    rw [List.foldl_cons, spliceExp_empty (hb a (List.mem_cons_self a L))]
    exact ih _ fun i hi => hb i (List.mem_cons_of_mem a hi)

lemma foldProc_id {L : List Nat} (h : Wheel) (hb : ∀ i ∈ L, h.bins i = []) :
    L.foldl spliceBinToProcessing h = h := by
  induction L generalizing h with
  | nil => rfl
  | cons a L ih =>
    rw [List.foldl_cons, spliceProc_empty (hb a (List.mem_cons_self a L))]
    exact ih _ fun i hi => hb i (List.mem_cons_of_mem a hi)

/-! ## Lemmas about the processing pass -/

lemma ht_insert_last (h : Wheel) (t : Timer) : (ht_insert h t).last = h.last := by
  unfold ht_insert ht_nq
  split <;> rfl

lemma ht_insert_processing (h : Wheel) (t : Timer) :
    (ht_insert h t).processing = h.processing := by
  unfold ht_insert ht_nq
  split <;> rfl

lemma processList_last (L : List Timer) (h : Wheel) :
    (L.foldl ht_process_one h).last = h.last := by
  induction L generalizing h with
  | nil => rfl
  | cons a L ih =>
    rw [List.foldl_cons, ih]
    exact ht_insert_last h a

lemma processList_processing (L : List Timer) (h : Wheel) :
    (L.foldl ht_process_one h).processing = h.processing := by
  induction L generalizing h with
  | nil => rfl
  | cons a L ih =>
    rw [List.foldl_cons, ih]
    exact ht_insert_processing h a

lemma ht_insert_binInv {h : Wheel} {t : Timer} (hB : BinInv h) : BinInv (ht_insert h t) := by
  unfold ht_insert
  split
  · intro i u hu
    exact hB i u hu
  · rename_i hgt
    intro i u hu
    unfold ht_nq at hu
    simp only [] at hu
    by_cases hidx : i = get_high_index64 (t.when ^^^ h.last)
    · subst hidx
      rw [Function.update_same] at hu
      rcases List.mem_append.1 hu with h1 | h2
      · exact hB _ u h1
      · have hut : u = t := by
          cases h2 with
          | head => rfl
          | tail _ h3 => cases h3
        subst hut
        refine ⟨rfl, ?_⟩
        show h.last < _
        omega
    · rw [Function.update_noteq hidx] at hu
      exact hB i u hu

lemma processList_binInv {L : List Timer} {h : Wheel} (hB : BinInv h) :
    BinInv (L.foldl ht_process_one h) := by
  induction L generalizing h with
  | nil => exact hB
  | cons a L ih =>
    rw [List.foldl_cons]
    exact ih (ht_insert_binInv hB)

lemma ht_insert_expInv {h : Wheel} {t : Timer} (hE : ExpInv h) : ExpInv (ht_insert h t) := by
  unfold ht_insert
  split
  · rename_i hle
    intro u hu
    rcases List.mem_append.1 hu with h1 | h2
    · exact hE u h1
    · have hut : u = t := by
        cases h2 with
        | head => rfl
        | tail _ h3 => cases h3
      subst hut
      exact hle
  · intro u hu
    exact hE u hu

lemma processList_expInv {L : List Timer} {h : Wheel} (hE : ExpInv h) :
    ExpInv (L.foldl ht_process_one h) := by
  induction L generalizing h with
  | nil => exact hE
  | cons a L ih =>
    rw [List.foldl_cons]
    exact ih (ht_insert_expInv hE)

/-! ## Characterizing the four phases of `timeout` -/

lemma spliceExp_bins_same (h : Wheel) (i : Nat) : (spliceBinToExpired h i).bins i = [] := by
  unfold spliceBinToExpired
  exact Function.update_same i _ _

lemma spliceExp_bins_other {i j : Nat} (h : Wheel) (hij : i ≠ j) :
    (spliceBinToExpired h j).bins i = h.bins i := by
  unfold spliceBinToExpired
  exact Function.update_noteq hij _ _

lemma ht_process_setup_eq (h : Wheel) (index n : Nat) :
    ht_process_setup h index n =
      (List.range' index (get_high_index64 (n ^^^ h.last) + 1 - index)).foldl
        spliceBinToProcessing h := rfl

lemma phases_decomp (h : Wheel) (n : Nat) :
    ht_timeout_phases h n =
      { (List.range' (Nat.max 1 (get_high_index64 (n - h.last)))
          (get_high_index64 (n ^^^ h.last) + 1 -
            Nat.max 1 (get_high_index64 (n - h.last)))).foldl
          spliceBinToProcessing
          ((List.range' 1 (get_high_index64 (n - h.last) - 1)).foldl spliceBinToExpired
            (spliceBinToExpired h 0))
        with last := n } := by
  show { ht_process_setup ((List.range' 1 (get_high_index64 (n - h.last) - 1)).foldl
          spliceBinToExpired (spliceBinToExpired h 0))
          (Nat.max 1 (get_high_index64 (n - h.last))) n with last := n } = _
  rw [ht_process_setup_eq, foldExp_last]
  rfl

lemma phases_char (h : Wheel) (n : Nat) :
    (ht_timeout_phases h n).last = n ∧
    (∀ i, (ht_timeout_phases h n).bins i = [] ∨
       ((ht_timeout_phases h n).bins i = h.bins i ∧
         get_high_index64 (n ^^^ h.last) < i)) ∧
    (∀ t ∈ (ht_timeout_phases h n).processing, t ∈ h.processing ∨ ∃ i, t ∈ h.bins i) ∧
    (∀ t ∈ (ht_timeout_phases h n).expired,
       t ∈ h.expired ∨ ∃ i, t ∈ h.bins i ∧
         (i = 0 ∨ (1 ≤ i ∧ i + 1 ≤ get_high_index64 (n - h.last)))) := by
  rw [phases_decomp]
  refine ⟨rfl, ?_, ?_, ?_⟩
  · intro i
    by_cases hS : i ∈ List.range' (Nat.max 1 (get_high_index64 (n - h.last)))
        (get_high_index64 (n ^^^ h.last) + 1 - Nat.max 1 (get_high_index64 (n - h.last)))
    · left
      exact foldProc_bins_mem _ hS
    · rw [show ({ (List.range' (Nat.max 1 (get_high_index64 (n - h.last)))
          (get_high_index64 (n ^^^ h.last) + 1 -
            Nat.max 1 (get_high_index64 (n - h.last)))).foldl
          spliceBinToProcessing
          ((List.range' 1 (get_high_index64 (n - h.last) - 1)).foldl spliceBinToExpired
            (spliceBinToExpired h 0))
        with last := n } : Wheel).bins i =
        ((List.range' (Nat.max 1 (get_high_index64 (n - h.last)))
          (get_high_index64 (n ^^^ h.last) + 1 -
            Nat.max 1 (get_high_index64 (n - h.last)))).foldl
          spliceBinToProcessing
          ((List.range' 1 (get_high_index64 (n - h.last) - 1)).foldl spliceBinToExpired
            (spliceBinToExpired h 0))).bins i from rfl,
        foldProc_bins_not_mem _ hS]
      by_cases hE : i ∈ List.range' 1 (get_high_index64 (n - h.last) - 1)
      · left
        exact foldExp_bins_mem _ hE
      · rw [foldExp_bins_not_mem _ hE]
        by_cases h0 : i = 0
        · subst h0
          left
          exact spliceExp_bins_same h 0
        · rw [spliceExp_bins_other h h0]
          right
          refine ⟨rfl, ?_⟩
          by_contra htop
          push_neg at htop
          rw [List.mem_range'_1] at hS hE
          unfold Nat.max at hS
          rcases le_total 1 (get_high_index64 (n - h.last)) with hm | hm
          · rw [sup_eq_right.2 hm] at hS
            omega
          · rw [sup_eq_left.2 hm] at hS
            omega
  · intro t ht
    have ht2 := foldProc_processing_mem _ ht
    rcases ht2 with h1 | ⟨i, hiL, hib⟩
    · rw [foldExp_processing] at h1
      exact Or.inl h1
    · by_cases hE : i ∈ List.range' 1 (get_high_index64 (n - h.last) - 1)
      · rw [foldExp_bins_mem _ hE] at hib
        cases hib
      · rw [foldExp_bins_not_mem _ hE] at hib
        by_cases h0 : i = 0
        · subst h0
          rw [spliceExp_bins_same h 0] at hib
          cases hib
        · rw [spliceExp_bins_other h h0] at hib
          exact Or.inr ⟨i, hib⟩
  · intro t ht
    rw [show ({ (List.range' (Nat.max 1 (get_high_index64 (n - h.last)))
          (get_high_index64 (n ^^^ h.last) + 1 -
            Nat.max 1 (get_high_index64 (n - h.last)))).foldl
          spliceBinToProcessing
          ((List.range' 1 (get_high_index64 (n - h.last) - 1)).foldl spliceBinToExpired
            (spliceBinToExpired h 0))
        with last := n } : Wheel).expired =
        ((List.range' 1 (get_high_index64 (n - h.last) - 1)).foldl spliceBinToExpired
            (spliceBinToExpired h 0)).expired from foldProc_expired _ _] at ht
    have ht2 := foldExp_expired_mem _ ht
    rcases ht2 with h1 | ⟨i, hiL, hib⟩
    · rcases List.mem_append.1 h1 with h2 | h2
      · exact Or.inl h2
      · exact Or.inr ⟨0, h2, Or.inl rfl⟩
    · rw [List.mem_range'_1] at hiL
      have h0 : i ≠ 0 := by omega
      rw [spliceExp_bins_other h h0] at hib
      exact Or.inr ⟨i, hib, Or.inr (by omega)⟩

/-! ## Unfolding lemmas for the public operations -/

lemma hitime_timeout_of_le {h : Wheel} {n : Nat} (hc : n ≤ h.last) :
    hitime_timeout h n = (h, false) := by
  unfold hitime_timeout
  rw [if_pos hc]

lemma hitime_timeout_of_gt {h : Wheel} {n : Nat} (hc : h.last < n) :
    hitime_timeout h n = (ht_process_all (ht_timeout_phases h n),
      !(ht_process_all (ht_timeout_phases h n)).expired.isEmpty) := by
  unfold hitime_timeout
  rw [if_neg (by omega)]

lemma timeoutPartial_of_gt {h : Wheel} {n : Nat} {mo : Int} (hc : h.last < n) :
    hitime_timeout_partial h n mo = ( ht_process (ht_timeout_phases h n) mo,
      !( ht_process (ht_timeout_phases h n) mo).processing.isEmpty) := by
  unfold hitime_timeout_partial
  rw [if_pos hc]

lemma timeoutPartial_of_le {h : Wheel} {n : Nat} {mo : Int} (hc : ¬ h.last < n) :
    hitime_timeout_partial h n mo = ( ht_process h mo,
      !( ht_process h mo).processing.isEmpty) := by
  unfold hitime_timeout_partial
  rw [if_neg hc]

lemma expire_all_last (h : Wheel) : (hitime_expire_all h).last = h.last := by
  unfold hitime_expire_all
  rw [foldExp_last]

lemma expire_all_bins (h : Wheel) (i : Nat) :
    (hitime_expire_all h).bins i =
      ((List.range HITIME_BINS).foldl spliceBinToExpired h).bins i := rfl

/-! ## BinInv preservation (claim C1) -/

lemma binInv_init : BinInv hitime_init := by
  intro i t ht
  simp [hitime_init] at ht

lemma binInv_phases {h : Wheel} {n : Nat} (hB : BinInv h) (hln : h.last < n) :
    BinInv (ht_timeout_phases h n) := by
  have hph := phases_char h n
  intro i t ht
  rcases hph.2.1 i with hempty | ⟨heq, hlt⟩
  · rw [hempty] at ht
    cases ht
  · rw [heq] at ht
    obtain ⟨hidx, hfut⟩ := hB i t ht
    have hne : h.last ≠ n := by omega
    rw [ghi_eq_log2] at hidx hlt
    have hstable := bin_stable hidx hfut hlt hne
    rw [hph.1]
    refine ⟨?_, hstable.2⟩
    rw [ghi_eq_log2]
    exact hstable.1

lemma binInv_timeout {h : Wheel} {n : Nat} (hB : BinInv h) :
    BinInv ( hitime_timeout h n).1 := by
  by_cases hc : n ≤ h.last
  · rw [hitime_timeout_of_le hc]
    exact hB
  · rw [hitime_timeout_of_gt (by omega)]
    show BinInv (ht_process_all (ht_timeout_phases h n))
    unfold ht_process_all
    apply processList_binInv
    exact binInv_phases hB (by omega)

lemma binInv_process {h : Wheel} {mo : Int} (hB : BinInv h) : BinInv ( ht_process h mo) := by
  unfold ht_process
  apply processList_binInv
  exact hB

lemma binInv_timeoutPartial {h : Wheel} {n : Nat} {mo : Int} (hB : BinInv h) :
    BinInv ( hitime_timeout_partial h n mo).1 := by
  by_cases hc : h.last < n
  · rw [timeoutPartial_of_gt hc]
    exact binInv_process (binInv_phases hB hc)
  · rw [timeoutPartial_of_le hc]
    exact binInv_process hB

lemma binInv_start {h : Wheel} {t : Timer} (hB : BinInv h) : BinInv (hitime_start h t) := by
  unfold hitime_start
  split
  · exact hB
  · exact ht_insert_binInv hB

lemma binInv_stop {h : Wheel} {t : Timer} (hB : BinInv h) : BinInv ( hitime_stop h t) := by
  intro i u hu
  have hu2 : u ∈ (h.bins i).erase t := hu
  exact hB i u (List.mem_of_mem_erase hu2)

lemma binInv_expire_all {h : Wheel} (hB : BinInv h) : BinInv (hitime_expire_all h) := by
  intro i u hu
  rw [expire_all_bins] at hu
  by_cases hm : i ∈ List.range HITIME_BINS
  · rw [foldExp_bins_mem _ hm] at hu
    cases hu
  · rw [foldExp_bins_not_mem _ hm] at hu
    rw [expire_all_last]
    exact hB i u hu

lemma binInv_get_next {h : Wheel} (hB : BinInv h) : BinInv (hitime_get_next h).1 := by
  unfold hitime_get_next
  split
  · exact hB
  · exact hB

/-- C1: after every public operation (`start`, `start_range`, `stop`,
`touch`, `timeout`, `timedelta`, `timeout_partial`, `expire_all`,
`get_next`) on an initialized wheel, every timer `t` linked in `bins[i]`
satisfies `highest_set_bit (t.when XOR wheel.last) = i` and
`t.when > wheel.last`.  Stated as: the invariant holds of the freshly
initialized wheel, and each public operation preserves it. -/
theorem C1_bin_placement_invariant (h : Wheel) (hB : BinInv h) :
    BinInv hitime_init ∧
    (∀ t, BinInv (hitime_start h t)) ∧
    (∀ t tmin tmax, BinInv ( hitime_start_range h t tmin tmax).1) ∧
    (∀ t, BinInv ( hitime_stop h t)) ∧
    (∀ t w, BinInv ( hitime_touch h t w).1) ∧
    (∀ n, BinInv ( hitime_timeout h n).1) ∧
    (∀ d, BinInv (hitime_timedelta h d).1) ∧
    (∀ n mo, BinInv ( hitime_timeout_partial h n mo).1) ∧
    BinInv (hitime_expire_all h) ∧
    BinInv (hitime_get_next h).1 := by
  refine ⟨binInv_init, fun t => binInv_start hB, fun t a b => binInv_start hB,
    fun t => binInv_stop hB, fun t w => ht_insert_binInv (binInv_stop hB),
    fun n => binInv_timeout hB, fun d => ?_, fun n mo => binInv_timeoutPartial hB,
    binInv_expire_all hB, binInv_get_next hB⟩
  unfold hitime_timedelta
  exact binInv_timeout hB

/-- Witness for C1 at concrete inputs: a start into bin 2 followed by a
timeout keeps the invariant. -/
theorem C1_bin_placement_invariant_witness :
    BinInv (hitime_start hitime_init ⟨0, 5, 0⟩) ∧
    BinInv ( hitime_timeout (hitime_start hitime_init ⟨0, 5, 0⟩) 3).1 := by
  have h1 := (C1_bin_placement_invariant hitime_init binInv_init).2.1 ⟨0, 5, 0⟩
  exact ⟨h1, (C1_bin_placement_invariant _ h1).2.2.2.2.2.1 3⟩

/-! ## Claim C5: behaviour of `hitime_start` -/

/-- C5: for an unlinked timer `t`, `hitime_start` appends `t` to the tail
of `expired` when `t.when ≤ last` and otherwise links `t` into
`bins[highest_set_bit (t.when XOR last)]`, in both cases leaving `t.when`,
`t.data` (the appended element is `t` itself) and `wheel.last` unchanged;
for a linked timer nothing changes. -/
theorem C5_start_behavior (h : Wheel) (t : Timer) :
    (inWheel h t = false → t.when ≤ h.last →
       hitime_start h t = Wheel.mk h.last (h.expired ++ [t]) h.processing h.bins) ∧
    (inWheel h t = false → h.last < t.when →
       hitime_start h t = Wheel.mk h.last h.expired h.processing
         (Function.update h.bins (get_high_index64 (t.when ^^^ h.last))
           (h.bins (get_high_index64 (t.when ^^^ h.last)) ++ [t]))) ∧
    (inWheel h t = true → hitime_start h t = h) := by
  refine ⟨?_, ?_, ?_⟩
  · intro hnl hle
    unfold hitime_start ht_insert
    rw [if_neg (by simp [hnl]), if_pos hle]
  · intro hnl hgt
    unfold hitime_start ht_insert ht_nq
    rw [if_neg (by simp [hnl]), if_neg (by omega)]
  · intro hl
    unfold hitime_start
    rw [if_pos (by simp [hl])]

/-- Witness for C5 at concrete inputs: an expired start, a future start
and a double start. -/
theorem C5_start_behavior_witness :
    hitime_start hitime_init ⟨0, 0, 7⟩ =
      Wheel.mk hitime_init.last (hitime_init.expired ++ [⟨0, 0, 7⟩])
        hitime_init.processing hitime_init.bins ∧
    hitime_start hitime_init ⟨0, 5, 7⟩ =
      Wheel.mk hitime_init.last hitime_init.expired hitime_init.processing
        (Function.update hitime_init.bins
          (get_high_index64 ((⟨0, 5, 7⟩ : Timer).when ^^^ hitime_init.last))
          (hitime_init.bins
            (get_high_index64 ((⟨0, 5, 7⟩ : Timer).when ^^^ hitime_init.last)) ++
              [⟨0, 5, 7⟩])) ∧
    hitime_start { hitime_init with expired := [⟨0, 0, 7⟩] } ⟨0, 0, 7⟩ =
      { hitime_init with expired := [⟨0, 0, 7⟩] } :=
  ⟨(C5_start_behavior hitime_init ⟨0, 0, 7⟩).1 (by decide) (by decide),
   (C5_start_behavior hitime_init ⟨0, 5, 7⟩).2.1 (by decide) (by decide),
   (C5_start_behavior { hitime_init with expired := [⟨0, 0, 7⟩] } ⟨0, 0, 7⟩).2.2 (by decide)⟩

/-! ## Claim C9: `start` then `stop` is the identity -/

/-- C9: for an unlinked timer `t` and any `t.when`, `hitime_start`
followed by `hitime_stop` restores the entire wheel state (`last`,
`expired`, `processing` and all bins) and leaves `t` unlinked. -/
theorem C9_start_stop_roundtrip (h : Wheel) (t : Timer)
    (hnl : inWheel h t = false) (hnb : ∀ i, HITIME_BINS ≤ i → h.bins i = []) :
    hitime_stop (hitime_start h t) t = h ∧
    inWheel ( hitime_stop (hitime_start h t) t) t = false := by
  have hnl2 := hnl
  simp only [inWheel, Bool.or_eq_false_iff] at hnl2
  simp [inWheel] at hnl
  obtain ⟨⟨he, hp⟩, hblt⟩ := hnl
  have hb : ∀ i, t ∉ h.bins i := by
    intro i
    by_cases hi : i < HITIME_BINS
    · exact hblt i hi
    · rw [hnb i (by omega)]
      simp
  have hmain : hitime_stop (hitime_start h t) t = h := by
    unfold hitime_start
    rw [if_neg (by simp [inWheel]; exact ⟨⟨he, hp⟩, hblt⟩)]
    unfold ht_insert
    by_cases hc : t.when ≤ h.last
    · rw [if_pos hc]
      unfold hitime_stop
      apply Wheel.ext
      · rfl
      · show (h.expired ++ [t]).erase t = h.expired
        rw [List.erase_append_right _ he, List.erase_cons_head, List.append_nil]
      · exact List.erase_of_not_mem hp
      · funext i
        exact List.erase_of_not_mem (hb i)
    · rw [if_neg hc]
      unfold ht_nq hitime_stop
      apply Wheel.ext
      · rfl
      · exact List.erase_of_not_mem he
      · exact List.erase_of_not_mem hp
      · funext i
        show (Function.update h.bins (get_high_index64 (t.when ^^^ h.last))
          (h.bins (get_high_index64 (t.when ^^^ h.last)) ++ [t]) i).erase t = h.bins i
        by_cases hidx : i = get_high_index64 (t.when ^^^ h.last)
        · rw [hidx, Function.update_same]
          rw [List.erase_append_right _ (hb _), List.erase_cons_head, List.append_nil]
        · rw [Function.update_noteq hidx]
          exact List.erase_of_not_mem (hb i)
  refine ⟨hmain, ?_⟩
  rw [hmain]
  simp [inWheel]
  exact ⟨⟨he, hp⟩, hblt⟩

/-- Witness for C9: starting and stopping a fresh timer on the fresh wheel
restores it exactly. -/
theorem C9_start_stop_roundtrip_witness :
    hitime_stop (hitime_start hitime_init ⟨1, 9, 0⟩) ⟨1, 9, 0⟩ = hitime_init ∧
    inWheel ( hitime_stop (hitime_start hitime_init ⟨1, 9, 0⟩) ⟨1, 9, 0⟩) ⟨1, 9, 0⟩ = false :=
  C9_start_stop_roundtrip hitime_init ⟨1, 9, 0⟩ (by decide) (fun i hi => rfl)

/-! ## Claim C2: the return value of `hitime_timeout` -/

/-- C2 counterexample: with one already-expired timer pending and
`now = last = 0`, `hitime_timeout` returns `false` although the expired
list is non-empty when the call returns — the source returns `false`
unconditionally whenever `now ≤ last`. -/
theorem C2_timeout_return_counterexample :
    ( hitime_timeout (hitime_start hitime_init ⟨0, 0, 0⟩) 0).2 = false ∧
    ( hitime_timeout (hitime_start hitime_init ⟨0, 0, 0⟩) 0).1.expired ≠ [] := by
  decide

/-- C2 amended: when `now > last`, `hitime_timeout` returns `true` iff
`expired` is non-empty after the call; when `now ≤ last` the call is a
no-op on the wheel state and returns `false` unconditionally, regardless
of the contents of `expired`. -/
theorem C2_timeout_return_amended (h : Wheel) (now : Nat) :
    (now ≤ h.last → hitime_timeout h now = (h, false)) ∧
    (h.last < now →
      (( hitime_timeout h now).2 = true ↔ ( hitime_timeout h now).1.expired ≠ [])) := by
  refine ⟨fun hc => hitime_timeout_of_le hc, fun hc => ?_⟩
  rw [hitime_timeout_of_gt hc]
  simp

/-- Witness for C2 amended at concrete inputs. -/
theorem C2_timeout_return_amended_witness :
    hitime_timeout hitime_init 0 = (hitime_init, false) ∧
    (( hitime_timeout hitime_init 5).2 = true ↔
      ( hitime_timeout hitime_init 5).1.expired ≠ []) :=
  ⟨(C2_timeout_return_amended hitime_init 0).1 (by decide),
   (C2_timeout_return_amended hitime_init 5).2 (by decide)⟩

/-! ## Claim C10: `timeout_partial` with `now ≤ last` and `max_ops ≤ 0` -/

/-- C10: if `now ≤ last` and `max_ops ≤ 0`, `hitime_timeout_partial`
leaves the entire wheel state unchanged and returns `true` iff the
processing list is non-empty (a non-positive `max_ops` processes zero
entries). -/
theorem C10_timeoutPartial_nonpositive_ops (h : Wheel) (now : Nat) (max_ops : Int)
    (hn : now ≤ h.last) (hm : max_ops ≤ 0) :
    hitime_timeout_partial h now max_ops = (h, !h.processing.isEmpty) ∧
    (( hitime_timeout_partial h now max_ops).2 = true ↔ h.processing ≠ []) := by
  have h0 : max_ops.toNat = 0 := Int.toNat_of_nonpos hm
  have hfix : ht_process h max_ops = h := by
    unfold ht_process
    rw [h0, List.take_zero, List.drop_zero, List.foldl_nil]
  have heq : hitime_timeout_partial h now max_ops = (h, !h.processing.isEmpty) := by
    rw [timeoutPartial_of_le (by omega), hfix]
  refine ⟨heq, ?_⟩
  rw [heq]
  simp

/-- Witness for C10: a wheel holding one entry in `processing` (as left
behind by an earlier interrupted partial pass). -/
theorem C10_timeoutPartial_nonpositive_ops_witness :
    hitime_timeout_partial
        ( hitime_timeout_partial (hitime_start hitime_init ⟨0, 2, 0⟩) 2 0).1 1 (-1) =
      (( hitime_timeout_partial (hitime_start hitime_init ⟨0, 2, 0⟩) 2 0).1,
        !(( hitime_timeout_partial (hitime_start hitime_init ⟨0, 2, 0⟩) 2 0).1.processing).isEmpty) :=
  (C10_timeoutPartial_nonpositive_ops _ 1 (-1) (by decide) (by decide)).1

/-! ## Claim C3: `hitime_get_wait` -/

lemma find?_range'_some {p : Nat → Bool} {s n i : Nat} (h1 : s ≤ i) (h2 : i < s + n)
    (hp : p i = true) (hmin : ∀ j, s ≤ j → j < i → p j = false) :
    (List.range' s n).find? p = some i := by
  induction n generalizing s with
  | zero => omega
  | succ n ih =>
    rw [List.range'_succ]
    by_cases hs : s = i
    · subst hs
      exact List.find?_cons_of_pos _ hp
    · have hps : ¬ p s = true := by
        rw [hmin s le_rfl (by omega)]
        simp
      rw [List.find?_cons_of_neg _ hps]
      exact ih (by omega) (by omega) (fun j hj1 hj2 => hmin j (by omega) hj2)

/-- C3: `hitime_get_wait` returns `2^i - (last mod 2^i)` where `i` is the
lowest nonempty bin index, returns `hitime_max_wait()` (`u64::MAX`) when
all 64 bins are empty, and is insensitive to the contents of the
`expired` and `processing` lists. -/
theorem C3_get_wait (h : Wheel) :
    (∀ i, i < HITIME_BINS → h.bins i ≠ [] → (∀ j, j < i → h.bins j = []) →
       hitime_get_wait h = 2 ^ i - h.last % 2 ^ i) ∧
    ((∀ i, i < HITIME_BINS → h.bins i = []) → hitime_get_wait h = hitime_max_wait) ∧
    (∀ e p, hitime_get_wait { h with expired := e, processing := p } = hitime_get_wait h) := by
  refine ⟨?_, ?_, ?_⟩
  · intro i hi hne hmin
    unfold hitime_get_wait ht_get_wait
    have hfind : (List.range HITIME_BINS).find? (fun j => !(h.bins j).isEmpty) = some i := by
      rw [List.range_eq_range']
      apply find?_range'_some (by omega) (by omega)
      · simp only [Bool.not_eq_true']
        cases hbi : h.bins i with
        | nil => exact absurd hbi hne
        | cons a l => rfl
      · intro j hj1 hj2
        simp [hmin j hj2]
    rw [hfind]
    show 2 ^ i - 1 - ((2 ^ i - 1) &&& h.last) + 1 = 2 ^ i - h.last % 2 ^ i
    have hmask : (2 ^ i - 1) &&& h.last = h.last % 2 ^ i := by
      rw [Nat.and_comm]
      exact Nat.and_pow_two_sub_one_eq_mod h.last i
    rw [hmask]
    have hpos : 0 < 2 ^ i := Nat.pos_pow_of_pos i (by omega)
    have hmlt : h.last % 2 ^ i < 2 ^ i := Nat.mod_lt _ hpos
    omega
  · intro hall
    unfold hitime_get_wait ht_get_wait
    have hfind : (List.range HITIME_BINS).find? (fun j => !(h.bins j).isEmpty) = none := by
      rw [List.find?_eq_none]
      intro x hx
      rw [List.mem_range] at hx
      simp [hall x hx]
    rw [hfind]
    rfl
  · intro e p
    rfl

/-- Witness for C3: a timer at `when = 8` sits in bin 3 of the fresh
wheel, so the wait is `2^3`; the fresh wheel itself reports the max
wait. -/
theorem C3_get_wait_witness :
    hitime_get_wait (hitime_start hitime_init ⟨0, 8, 0⟩) =
      2 ^ 3 - (hitime_start hitime_init ⟨0, 8, 0⟩).last % 2 ^ 3 ∧
    hitime_get_wait hitime_init = hitime_max_wait :=
  ⟨(C3_get_wait _).1 3 (by decide) (by decide) (by decide),
   (C3_get_wait hitime_init).2.1 (by decide)⟩

/-! ## Claim C8: the processing list between calls -/

/-- C8 counterexample: a timer in bin 1 at `last = 0`; calling
`hitime_timeout_partial(now = 2, max_ops = 0)` runs the splice phases but
re-processes nothing, so the call returns with `processing` non-empty
(and reports `true`, "still items to process"). -/
theorem C8_processing_empty_counterexample :
    ( hitime_timeout_partial (hitime_start hitime_init ⟨0, 2, 0⟩) 2 0).1.processing ≠ [] ∧
    ( hitime_timeout_partial (hitime_start hitime_init ⟨0, 2, 0⟩) 2 0).2 = true := by
  decide

/-- C8 amended: `processing` is empty after every public operation
except `hitime_timeout_partial`; `hitime_timeout_partial` itself may
return with a non-empty `processing` list and returns `false` exactly
when `processing` is empty on return. -/
theorem C8_processing_empty_amended (h : Wheel) (hP : h.processing = []) :
    (∀ t, (hitime_start h t).processing = []) ∧
    (∀ t tmin tmax, ( hitime_start_range h t tmin tmax).1.processing = []) ∧
    (∀ t, ( hitime_stop h t).processing = []) ∧
    (∀ t w, ( hitime_touch h t w).1.processing = []) ∧
    (∀ n, ( hitime_timeout h n).1.processing = []) ∧
    (∀ d, (hitime_timedelta h d).1.processing = []) ∧
    (hitime_expire_all h).processing = [] ∧
    (hitime_get_next h).1.processing = [] ∧
    (∀ idx, (hitime_expire_bin h idx).processing = []) ∧
    (∀ g n mo, (( hitime_timeout_partial g n mo).2 = false ↔
       ( hitime_timeout_partial g n mo).1.processing = [])) := by
  have hstart : ∀ t, (hitime_start h t).processing = [] := by
    intro t
    unfold hitime_start
    split
    · exact hP
    · rw [ht_insert_processing]
      exact hP
  have hstop : ∀ t, ( hitime_stop h t).processing = [] := by
    intro t
    show h.processing.erase t = []
    rw [hP]
    rfl
  have htimeout : ∀ n, ( hitime_timeout h n).1.processing = [] := by
    intro n
    by_cases hc : n ≤ h.last
    · rw [hitime_timeout_of_le hc]
      exact hP
    · rw [hitime_timeout_of_gt (by omega)]
      show (ht_process_all (ht_timeout_phases h n)).processing = []
      unfold ht_process_all
      rw [processList_processing]
  refine ⟨hstart, fun t a b => hstart _, hstop, ?_, htimeout, ?_, rfl, ?_, ?_, ?_⟩
  · intro t w
    show (ht_insert ( hitime_stop h t) _).processing = []
    rw [ht_insert_processing]
    exact hstop t
  · intro d
    unfold hitime_timedelta
    exact htimeout _
  · unfold hitime_get_next
    split
    · exact hP
    · exact hP
  · intro idx
    unfold hitime_expire_bin
    split
    · exact hP
    · rw [spliceExp_processing]
      exact hP
  · intro g n mo
    by_cases hc : g.last < n
    · rw [timeoutPartial_of_gt hc]
      simp
    · rw [timeoutPartial_of_le hc]
      simp

/-- Witness for C8 amended on the fresh wheel. -/
theorem C8_processing_empty_amended_witness :
    (hitime_start hitime_init ⟨0, 2, 0⟩).processing = [] ∧
    ( hitime_timeout hitime_init 4).1.processing = [] :=
  ⟨(C8_processing_empty_amended hitime_init rfl).1 ⟨0, 2, 0⟩,
   (C8_processing_empty_amended hitime_init rfl).2.2.2.2.1 4⟩

/-! ## Claim C6: the expired list holds only triggered timers -/

/-- C6 counterexample: `hitime_expire_all` moves a pending timer with
`when = 2` into `expired` while `last` stays 0, so `expired` holds a
timer with `when > last`. -/
theorem C6_expired_only_past_counterexample :
    (⟨0, 2, 0⟩ : Timer) ∈ (hitime_expire_all (hitime_start hitime_init ⟨0, 2, 0⟩)).expired ∧
    ¬ (⟨0, 2, 0⟩ : Timer).when ≤ (hitime_expire_all (hitime_start hitime_init ⟨0, 2, 0⟩)).last := by
  decide

lemma expInv_phases {h : Wheel} {n : Nat} (hB : BinInv h) (hE : ExpInv h)
    (hln : h.last < n) : ExpInv (ht_timeout_phases h n) := by
  have hph := phases_char h n
  intro t ht
  rw [hph.1]
  rcases hph.2.2.2 t ht with hmem | ⟨i, hbin, hcase⟩
  · have := hE t hmem
    omega
  · obtain ⟨hidx, hfut⟩ := hB i t hbin
    rw [ghi_eq_log2] at hidx
    have hbound := bin_when_bound hidx hfut
    rcases hcase with h0 | ⟨h1i, hup⟩
    · subst h0
      have h2 : (2:Nat) ^ (0 + 1) = 2 := by norm_num
      omega
    · rw [ghi_eq_log2] at hup
      have hnz : n - h.last ≠ 0 := by omega
      have hple : 2 ^ Nat.log2 (n - h.last) ≤ n - h.last := (Nat.le_log2 hnz).1 le_rfl
      have hmono : (2:Nat) ^ (i + 1) ≤ 2 ^ Nat.log2 (n - h.last) :=
        Nat.pow_le_pow_right (by omega) hup
      omega

lemma expInv_start {h : Wheel} {t : Timer} (hE : ExpInv h) : ExpInv (hitime_start h t) := by
  unfold hitime_start
  split
  · exact hE
  · exact ht_insert_expInv hE

lemma expInv_stop {h : Wheel} {t : Timer} (hE : ExpInv h) : ExpInv ( hitime_stop h t) := by
  intro u hu
  have hu2 : u ∈ h.expired.erase t := hu
  exact hE u (List.mem_of_mem_erase hu2)

lemma expInv_timeout {h : Wheel} {n : Nat} (hB : BinInv h) (hE : ExpInv h) :
    ExpInv ( hitime_timeout h n).1 := by
  by_cases hc : n ≤ h.last
  · rw [hitime_timeout_of_le hc]
    exact hE
  · rw [hitime_timeout_of_gt (by omega)]
    show ExpInv (ht_process_all (ht_timeout_phases h n))
    unfold ht_process_all
    apply processList_expInv
    exact expInv_phases hB hE (by omega)

lemma expInv_process {h : Wheel} {mo : Int} (hE : ExpInv h) : ExpInv ( ht_process h mo) := by
  unfold ht_process
  apply processList_expInv
  exact hE

lemma expInv_timeoutPartial {h : Wheel} {n : Nat} {mo : Int} (hB : BinInv h) (hE : ExpInv h) :
    ExpInv ( hitime_timeout_partial h n mo).1 := by
  by_cases hc : h.last < n
  · rw [timeoutPartial_of_gt hc]
    exact expInv_process (expInv_phases hB hE hc)
  · rw [timeoutPartial_of_le hc]
    exact expInv_process hE

lemma expInv_get_next {h : Wheel} (hE : ExpInv h) : ExpInv (hitime_get_next h).1 := by
  unfold hitime_get_next
  split
  · exact hE
  · rename_i t rest heq
    intro u hu
    have hu2 : u ∈ h.expired := by
      rw [heq]
      exact List.mem_cons_of_mem t hu
    exact hE u hu2

/-- C6 amended: after every public call except `hitime_expire_all` and
`hitime_expire_bin` — which deliberately move still-pending timers into
`expired` — every timer in the expired list satisfies
`t.when ≤ wheel.last`.  Preservation needs the bin invariant, since
`timeout` moves bulk-expired bins into `expired`. -/
theorem C6_expired_only_past_amended (h : Wheel) (hB : BinInv h) (hE : ExpInv h) :
    (∀ t, ExpInv (hitime_start h t)) ∧
    (∀ t tmin tmax, ExpInv ( hitime_start_range h t tmin tmax).1) ∧
    (∀ t, ExpInv ( hitime_stop h t)) ∧
    (∀ t w, ExpInv ( hitime_touch h t w).1) ∧
    (∀ n, ExpInv ( hitime_timeout h n).1) ∧
    (∀ d, ExpInv (hitime_timedelta h d).1) ∧
    (∀ n mo, ExpInv ( hitime_timeout_partial h n mo).1) ∧
    ExpInv (hitime_get_next h).1 := by
  refine ⟨fun t => expInv_start hE, fun t a b => expInv_start hE, fun t => expInv_stop hE,
    fun t w => ht_insert_expInv (expInv_stop hE), fun n => expInv_timeout hB hE,
    fun d => ?_, fun n mo => expInv_timeoutPartial hB hE, expInv_get_next hE⟩
  unfold hitime_timedelta
  exact expInv_timeout hB hE

/-- Witness for C6 amended: a start and a timeout on the fresh wheel. -/
theorem C6_expired_only_past_amended_witness :
    ExpInv (hitime_start hitime_init ⟨0, 2, 0⟩) ∧
    ExpInv ( hitime_timeout (hitime_start hitime_init ⟨0, 2, 0⟩) 3).1 := by
  have hB : BinInv (hitime_start hitime_init ⟨0, 2, 0⟩) := binInv_start binInv_init
  have hE0 : ExpInv hitime_init := by
    intro t ht
    simp [hitime_init] at ht
  refine ⟨(C6_expired_only_past_amended hitime_init binInv_init hE0).1 ⟨0, 2, 0⟩, ?_⟩
  exact (C6_expired_only_past_amended _ hB
    ((C6_expired_only_past_amended hitime_init binInv_init hE0).1 ⟨0, 2, 0⟩)).2.2.2.2.1 3

/-! ## Claim C4: waits shorter than `get_wait` expire nothing -/

lemma ht_get_wait_lowest {h : Wheel} {i : Nat} (hi : i < HITIME_BINS)
    (hne : h.bins i ≠ []) (hmin : ∀ j, j < i → h.bins j = []) :
    ht_get_wait h = 2 ^ i - h.last % 2 ^ i := by
  unfold ht_get_wait
  have hfind : (List.range HITIME_BINS).find? (fun j => !(h.bins j).isEmpty) = some i := by
    rw [List.range_eq_range']
    apply find?_range'_some (by omega) (by omega)
    · simp only [Bool.not_eq_true']
      cases hbi : h.bins i with
      | nil => exact absurd hbi hne
      | cons a l => rfl
    · intro j hj1 hj2
      simp [hmin j hj2]
  rw [hfind]
  show 2 ^ i - 1 - ((2 ^ i - 1) &&& h.last) + 1 = 2 ^ i - h.last % 2 ^ i
  have hmask : (2 ^ i - 1) &&& h.last = h.last % 2 ^ i := by
    rw [Nat.and_comm]
    exact Nat.and_pow_two_sub_one_eq_mod h.last i
  rw [hmask]
  have hpos : 0 < 2 ^ i := Nat.pos_pow_of_pos i (by omega)
  have hmlt : h.last % 2 ^ i < 2 ^ i := Nat.mod_lt _ hpos
  omega

lemma processList_bins_mono {L : List Timer} {h : Wheel} {i : Nat} {t : Timer}
    (ht : t ∈ h.bins i) : t ∈ (L.foldl ht_process_one h).bins i := by
  induction L generalizing h with
  | nil => exact ht
  | cons a L ih =>
    rw [List.foldl_cons]
    apply ih
    show t ∈ (ht_insert h a).bins i
    unfold ht_insert
    split
    · exact ht
    · unfold ht_nq
      simp only []
      by_cases hidx : i = get_high_index64 (a.when ^^^ h.last)
      · rw [hidx, Function.update_same]
        exact List.mem_append_left _ (hidx ▸ ht)
      · rw [Function.update_noteq hidx]
        exact ht

lemma processList_expired_from {L : List Timer} {h : Wheel} {t : Timer}
    (ht : t ∈ (L.foldl ht_process_one h).expired) : t ∈ h.expired ∨ t ∈ L := by
  induction L generalizing h with
  | nil => exact Or.inl ht
  | cons a L ih =>
    rw [List.foldl_cons] at ht
    rcases ih ht with h1 | h2
    · revert h1
      show t ∈ (ht_insert h a).expired → _
      unfold ht_insert
      split
      · intro h1
        rcases List.mem_append.1 h1 with h3 | h3
        · exact Or.inl h3
        · right
          have h4 := List.mem_singleton.1 h3
          rw [h4]
          exact List.mem_cons_self a L
      · intro h1
        exact Or.inl h1
    · exact Or.inr (List.mem_cons_of_mem a h2)

/-- C4: for a wheel satisfying the bin invariant (with u64-sized `last`
and `now`), if `now > last` and `now - last < hitime_get_wait h`, then
`hitime_timeout h now` moves no timer into `expired`: every timer linked
in a bin stays in its bin, `expired` picks up only (stale) `processing`
entries, and when `processing` is empty — as it is between public calls —
the whole call is exactly `last := now`. -/
theorem C4_wait_no_expiry (h : Wheel) (now : Nat) (hB : BinInv h)
    (hlast : h.last < U64_LIMIT) (hnow : now < U64_LIMIT)
    (hgt : h.last < now) (hwait : now - h.last < hitime_get_wait h) :
    (∀ i, ∀ t, t ∈ h.bins i → t ∈ ( hitime_timeout h now).1.bins i) ∧
    (∀ t, t ∈ ( hitime_timeout h now).1.expired → t ∈ h.expired ∨ t ∈ h.processing) ∧
    (h.processing = [] → ( hitime_timeout h now).1 = { h with last := now }) := by
  have hU : U64_LIMIT = 2 ^ 64 := rfl
  have hsubnz : now - h.last ≠ 0 := by omega
  have hxornz : now ^^^ h.last ≠ 0 := by
    intro h0
    have := Nat.xor_eq_zero.1 h0
    omega
  have hidxm64 : get_high_index64 (now - h.last) < 64 := by
    rw [ghi_eq_log2]
    exact (Nat.log2_lt hsubnz).2 (by omega)
  have htop64 : get_high_index64 (now ^^^ h.last) < 64 := by
    rw [ghi_eq_log2]
    exact (Nat.log2_lt hxornz).2 (Nat.xor_lt_two_pow (by omega) (by omega))
  have hranges : h.bins 0 = [] ∧
      (∀ j ∈ List.range' 1 (get_high_index64 (now - h.last) - 1), h.bins j = []) ∧
      (∀ j ∈ List.range' (Nat.max 1 (get_high_index64 (now - h.last)))
        (get_high_index64 (now ^^^ h.last) + 1 -
          Nat.max 1 (get_high_index64 (now - h.last))), h.bins j = []) := by
    by_cases hall : ∀ i, i < HITIME_BINS → h.bins i = []
    · refine ⟨hall 0 (by norm_num [HITIME_BINS]), ?_, ?_⟩
      · intro j hj
        rw [List.mem_range'_1] at hj
        exact hall j (by unfold HITIME_BINS; omega)
      · intro j hj
        rw [List.mem_range'_1] at hj
        have hmx : Nat.max 1 (get_high_index64 (now - h.last)) ≤
            get_high_index64 (now ^^^ h.last) + 1 ∨
            get_high_index64 (now ^^^ h.last) + 1 <
            Nat.max 1 (get_high_index64 (now - h.last)) := by omega
        exact hall j (by unfold HITIME_BINS; omega)
    · push_neg at hall
      have hex : ∃ i, i < HITIME_BINS ∧ h.bins i ≠ [] := by
        obtain ⟨i, hi1, hi2⟩ := hall
        exact ⟨i, hi1, hi2⟩
      have hspec := Nat.find_spec hex
      have hmin : ∀ j, j < Nat.find hex → h.bins j = [] := by
        intro j hj
        by_cases hj64 : j < HITIME_BINS
        · by_contra hne
          exact absurd ⟨hj64, hne⟩ (Nat.find_min hex hj)
        · by_contra hne
          exact absurd ⟨by omega, hne⟩ (Nat.find_min hex (by omega))
      have hwv : ht_get_wait h = 2 ^ Nat.find hex - h.last % 2 ^ Nat.find hex :=
        ht_get_wait_lowest hspec.1 hspec.2 hmin
      rw [show hitime_get_wait h = ht_get_wait h from rfl, hwv] at hwait
      have hi0pos : 0 < Nat.find hex := by
        by_contra h0
        have hz : Nat.find hex = 0 := by omega
        rw [hz] at hwait
        simp [Nat.mod_one] at hwait
        omega
      have hdiv : now / 2 ^ Nat.find hex = h.last / 2 ^ Nat.find hex :=
        div_pow_eq_of_between (by omega) (by omega)
      have hxorlt : now ^^^ h.last < 2 ^ Nat.find hex := xor_lt_of_div_eq hdiv
      have htoplt : get_high_index64 (now ^^^ h.last) < Nat.find hex := by
        rw [ghi_eq_log2]
        exact (Nat.log2_lt hxornz).2 hxorlt
      have hsublt : get_high_index64 (now - h.last) < Nat.find hex := by
        rw [ghi_eq_log2]
        apply (Nat.log2_lt hsubnz).2
        have hmle : h.last % 2 ^ Nat.find hex ≤ 2 ^ Nat.find hex := le_of_lt
          (Nat.mod_lt _ (Nat.pos_pow_of_pos _ (by omega)))
        omega
      refine ⟨hmin 0 hi0pos, ?_, ?_⟩
      · intro j hj
        rw [List.mem_range'_1] at hj
        exact hmin j (by omega)
      · intro j hj
        rw [List.mem_range'_1] at hj
        apply hmin j
        unfold Nat.max at hj
        rcases le_total 1 (get_high_index64 (now - h.last)) with hm | hm
        · rw [sup_eq_right.2 hm] at hj
          omega
        · rw [sup_eq_left.2 hm] at hj
          omega
  obtain ⟨hr0, hr1, hr2⟩ := hranges
  have hphase : ht_timeout_phases h now = { h with last := now } := by
    rw [phases_decomp, spliceExp_empty hr0, foldExp_id _ hr1, foldProc_id _ hr2]
  have hres : ( hitime_timeout h now).1 = ht_process_all { h with last := now } := by
    rw [hitime_timeout_of_gt hgt, hphase]
  refine ⟨?_, ?_, ?_⟩
  · intro i t ht
    rw [hres]
    unfold ht_process_all
    exact processList_bins_mono ht
  · intro t ht
    rw [hres] at ht
    unfold ht_process_all at ht
    have hfrom := processList_expired_from ht
    exact hfrom
  · intro hP
    rw [hres]
    unfold ht_process_all
    show (({ h with last := now } : Wheel).processing.foldl ht_process_one _) = _
    rw [show ({ h with last := now } : Wheel).processing = h.processing from rfl, hP,
      List.foldl_nil]

/-- Witness for C4: one timer in bin 3 (`when = 8`, `last = 0`) and
`now = 5 < 8 = get_wait`: the call only advances `last`. -/
theorem C4_wait_no_expiry_witness :
    ( hitime_timeout (hitime_start hitime_init ⟨0, 8, 0⟩) 5).1 =
      { hitime_start hitime_init ⟨0, 8, 0⟩ with last := 5 } :=
  (C4_wait_no_expiry (hitime_start hitime_init ⟨0, 8, 0⟩) 5 (binInv_start binInv_init)
    (by decide) (by decide) (by decide) (by decide)).2.2 (by decide)

/-! ## Claim C7: the zero-input precondition of `get_high_index64` -/

/-- C7: evaluation at the failing input.  `hitime_start_range` passes
`bits = max XOR min` to `get_high_index64` with no zero guard, so any
call with `min = max` (here 5 and 5) hands the helper the argument 0,
violating its documented precondition (`@warn Do NOT input zero`; the
GNU branch computes `63 - __builtin_clzl(0)`, which is undefined).  In
this model — which follows the spec's `b = 0 → idx = 0` reading — the
call degenerates to `t.when := max`.  The remaining call sites (`ht_nq`
under the `is_expired` guard, `ht_expire_bulk` and `ht_process_setup`
under `now > last`) do establish a nonzero argument. -/
theorem C7_start_range_zero_bits :
    start_range_bits 5 5 = 0 ∧
    ( hitime_start_range hitime_init ⟨0, 9, 9⟩ 5 5).2.when = 5 := by
  decide
